import Mathlib

/-!
Verification of the fuzzy text-matching engine (the "Matcher") of the
Dealers Plus server, shallowly embedded from the JavaScript source
(`server/index.js`): the normalizer `norm`, the Levenshtein dynamic
program `lev`, the query scorer `scoreQuery`, and the two ranking call
sites (`/api/dealers` filtered listing and the typeahead suggestion
pool).  JavaScript strings are modelled as `List Char`; `null`/absent
values as `none : Option (List Char)` (JavaScript `String(s || "")`
coerces both `null` and `undefined` to the empty string).
-/

namespace DealersPlus

/-- A character survives the normalizer's `replace(/[^a-z0-9]/g, "")`
step exactly when it is a lowercase ASCII letter or an ASCII digit. -/
def keepChar (c : Char) : Bool :=
  ('a' ≤ c && c ≤ 'z') || ('0' ≤ c && c ≤ '9')

/-- Normalization of a plain string: `toLowerCase` then strip every
character outside `[a-z0-9]` (source: `norm` in `server/index.js`). -/
def normStr (s : List Char) : List Char :=
  (s.map Char.toLower).filter keepChar

/-- `norm` as in the source, with `String(s || "")` coercion of
`null`/`undefined` to the empty string. -/
def norm (s : Option (List Char)) : List Char :=
  normStr (s.getD [])

/-- One row of the Levenshtein table: `levCellRow a b prevRow i j` is
cell `m[i+1][j]` of the source's table, computed from the previous row
`prevRow = m[i]`.  Column 0 holds the row index (`m[i] = [i]` in the
source); the inner cell is
`min(m[i][j] + 1, m[i+1][j-1] + 1, m[i][j-1] + (a[j-1] === b[i] ? 0 : 1))`.
The `getD` default is never consulted: every use keeps `j < a.length`
and `i < b.length`. -/
def levCellRow (a b : List Char) (prevRow : Nat → Nat) (i : Nat) : Nat → Nat
  | 0 => i + 1
  | j + 1 =>
      min (prevRow (j + 1) + 1)
        (min (levCellRow a b prevRow i j + 1)
          (prevRow j + (if a.getD j ' ' = b.getD i ' ' then 0 else 1)))

/-- `levCell a b i j` is cell `m[i][j]` of the source's dynamic
programming table for normalized strings `a` (columns) and `b` (rows):
row 0 is the index sequence `0..a.length`, and each later row is built
from its predecessor by `levCellRow`. -/
def levCell (a b : List Char) : Nat → Nat → Nat
  | 0 => fun j => j
  | i + 1 => levCellRow a b (levCell a b i) i

/-- `lev` from the source: normalize both arguments, fill the
`(|b|+1) × (|a|+1)` table, return `m[b.length][a.length]`. -/
def lev (a b : Option (List Char)) : Nat :=
  let na := norm a
  let nb := norm b
  levCell na nb nb.length na.length

/-- `startsWithSeg t q = true` iff `q` is a prefix of `t` (helper for
the JavaScript `String.prototype.includes` model). -/
def startsWithSeg : List Char → List Char → Bool
  | _, [] => true
  | [], _ :: _ => false
  | c :: cs, d :: ds => (c == d) && startsWithSeg cs ds

/-- `containsSeg t q = true` iff `q` occurs contiguously inside `t`:
the model of the JavaScript `t.includes(q)`. -/
def containsSeg : List Char → List Char → Bool
  | [], q => q.isEmpty
  | c :: ts, q => startsWithSeg (c :: ts) q || containsSeg ts q

/-- `scoreQuery` from the source: normalize both sides; sentinel `999`
when either normalized string is empty; `0` on a substring hit;
otherwise the Levenshtein distance (the source calls `lev(nq, nt)` on
the already-normalized strings, which re-normalizes them). -/
def scoreQuery (q text : Option (List Char)) : Nat :=
  let nq := norm q
  let nt := norm text
  if nq.isEmpty || nt.isEmpty then 999
  else if containsSeg nt nq then 0
  else lev (some nq) (some nt)

/-- A dealer record, with the fields read by the search endpoints. -/
structure Dealer where
  id : List Char
  name : List Char
  city : List Char
  state : List Char
  zip : List Char
  brands : List (List Char)
  phone : List Char
deriving DecidableEq

/-- Per-record score in `/api/dealers`:
`Math.min(scoreQuery(q, d.name), …, ...d.brands.map(b => scoreQuery(q, b)))`,
i.e. a left fold of `min` over the brand scores starting from the
minimum of the four fixed fields. -/
def dealerScore (q : List Char) (d : Dealer) : Nat :=
  (d.brands.map (fun b => scoreQuery (some q) (some b))).foldl min
    (min
      (min
        (min (scoreQuery (some q) (some d.name)) (scoreQuery (some q) (some d.city)))
        (scoreQuery (some q) (some d.state)))
      (scoreQuery (some q) (some d.zip)))

/-- The `if (q)` branch of `/api/dealers`: score every candidate, sort
ascending by score (JavaScript `Array.prototype.sort` is stable, so a
stable merge sort models it), return `[]` when the list is empty or the
best score exceeds 4, else the reordered dealers. -/
def searchDealers (q : List Char) (list : List Dealer) : List Dealer :=
  let scored :=
    (list.map (fun d => (d, dealerScore q d))).mergeSort (fun x y => x.2 ≤ y.2)
  match scored with
  | [] => []
  | top :: _ => if 4 < top.2 then [] else scored.map (fun x => x.1)

/-- JavaScript truthiness for an optional string query parameter:
present and non-empty. -/
def truthy : Option (List Char) → Bool
  | none => false
  | some s => !s.isEmpty

/-- `toLowerCase` on a plain string. -/
def lowerStr (s : List Char) : List Char := s.map Char.toLower

/-- The `/api/dealers` handler on its query parameters: the four
structured filters applied in source order, then the fuzzy-search
branch when `q` is truthy.  (The DTO decoration with ratings is
orthogonal to search and omitted.) -/
def apiDealers (state city zip brand q : Option (List Char))
    (ds : List Dealer) : List Dealer :=
  let l1 := if truthy state then
      ds.filter (fun d => lowerStr d.state == lowerStr (state.getD [])) else ds
  let l2 := if truthy city then
      l1.filter (fun d => lowerStr d.city == lowerStr (city.getD [])) else l1
  let l3 := if truthy zip then
      l2.filter (fun d => d.zip == zip.getD []) else l2
  let l4 := if truthy brand then
      l3.filter (fun d => (d.brands.map lowerStr).contains (lowerStr (brand.getD []))) else l3
  if truthy q then searchDealers (q.getD []) l4 else l4

/-- A `{kind, value}` suggestion pool entry. -/
structure Sug where
  kind : List Char
  value : List Char
deriving DecidableEq

/-- Worker for `setDedup`: drop every value already `seen`. -/
def setDedupAux (seen : List (List Char)) : List (List Char) → List (List Char)
  | [] => []
  | x :: xs =>
      if x ∈ seen then setDedupAux seen xs else x :: setDedupAux (x :: seen) xs

/-- `Array.from(new Set(xs))`: deduplicate keeping the first occurrence
of each value, in encounter order. -/
def setDedup (xs : List (List Char)) : List (List Char) :=
  setDedupAux [] xs

/-- The suggestion pool of `/api/search/suggest`: every dealer name,
city, state and zip, then the deduplicated union of all brand
strings, each tagged with its category. -/
def suggestPool (ds : List Dealer) : List Sug :=
  ds.map (fun d => ⟨"dealer".toList, d.name⟩)
    ++ ds.map (fun d => ⟨"city".toList, d.city⟩)
    ++ ds.map (fun d => ⟨"state".toList, d.state⟩)
    ++ ds.map (fun d => ⟨"zip".toList, d.zip⟩)
    ++ (setDedup (ds.flatMap (fun d => d.brands))).map (fun b => ⟨"brand".toList, b⟩)

/-- Each pool entry paired with its `scoreQuery` score (the JavaScript
`{...it, score}`). -/
def suggestScored (q : Option (List Char)) (ds : List Dealer) : List (Sug × Nat) :=
  (suggestPool ds).map (fun it => (it, scoreQuery q (some it.value)))

/-- The scored pool sorted ascending by score (stable). -/
def suggestRanked (q : Option (List Char)) (ds : List Dealer) : List (Sug × Nat) :=
  (suggestScored q ds).mergeSort (fun x y => x.2 ≤ y.2)

/-- `/api/search/suggest`: `[]` for a falsy query, else the best three
entries of the ranked pool (`.slice(0, 3)`). -/
def suggestionsFor (q : Option (List Char)) (ds : List Dealer) : List (Sug × Nat) :=
  if truthy q then (suggestRanked q ds).take 3 else []

/-- The minimum (best) per-record score of a candidate set, `999` when
the set is empty (used only to state the listing threshold claims). -/
def bestScore (q : List Char) (ds : List Dealer) : Nat :=
  ((ds.map (dealerScore q)).min?).getD 999

/-- The five seeded dealer records of `server/index.js`. -/
def dealersSeed : List Dealer :=
  [⟨"D001".toList, "Rocky Mountain Motors".toList, "Denver".toList, "CO".toList,
      "80202".toList, ["Toyota".toList, "Honda".toList], "(303) 555-1300".toList⟩,
   ⟨"D002".toList, "Hudson River Autos".toList, "New York".toList, "NY".toList,
      "10001".toList, ["Audi".toList, "BMW".toList, "Mercedes-Benz".toList],
      "(212) 555-2200".toList⟩,
   ⟨"D003".toList, "Lone Star Drive".toList, "Austin".toList, "TX".toList,
      "73301".toList, ["Ford".toList, "Chevrolet".toList], "(512) 555-9988".toList⟩,
   ⟨"D004".toList, "Windy City Wheels".toList, "Chicago".toList, "IL".toList,
      "60601".toList, ["Honda".toList, "Toyota".toList, "Ford".toList],
      "(773) 555-4400".toList⟩,
   ⟨"D005".toList, "Golden Gate Garage".toList, "San Francisco".toList, "CA".toList,
      "94103".toList, ["Audi".toList, "BMW".toList], "(415) 555-7777".toList⟩]

/-- The items a record's score is minimized over: name, city, state,
zip, and each brand string. -/
def searchFields (d : Dealer) : List (List Char) :=
  [d.name, d.city, d.state, d.zip] ++ d.brands

/-! ## Specification-side definitions -/

/-- The classic Levenshtein recurrence on (already normalized) strings,
written as the textbook head recursion.  This is the reference the
source's table is checked against. -/
def levRec : List Char → List Char → Nat
  | [], ys => ys.length
  | x :: xs, [] => (x :: xs).length
  | x :: xs, y :: ys =>
      min (levRec xs (y :: ys) + 1)
        (min (levRec (x :: xs) ys + 1)
          (levRec xs ys + (if x = y then 0 else 1)))

/-- Left-to-right alignments: `Aligns xs ys n` holds when `xs` can be
aligned against `ys` with total cost `n`, each deletion and insertion
costing 1 and each substitution costing 1 unless the characters agree. -/
inductive Aligns : List Char → List Char → Nat → Prop where
  | nil : Aligns [] [] 0
  | del {xs ys : List Char} {n : Nat} (x : Char) :
      Aligns xs ys n → Aligns (x :: xs) ys (n + 1)
  | ins {xs ys : List Char} {n : Nat} (y : Char) :
      Aligns xs ys n → Aligns xs (y :: ys) (n + 1)
  | sub {xs ys : List Char} {n : Nat} (x y : Char) :
      Aligns xs ys n → Aligns (x :: xs) (y :: ys) (n + (if x = y then 0 else 1))

/-- One single-character edit at an arbitrary position: insertion,
deletion, or substitution. -/
inductive EditStep : List Char → List Char → Prop where
  | ins (u v : List Char) (c : Char) : EditStep (u ++ v) (u ++ c :: v)
  | del (u v : List Char) (c : Char) : EditStep (u ++ c :: v) (u ++ v)
  | sub (u v : List Char) (c c' : Char) : EditStep (u ++ c :: v) (u ++ c' :: v)

/-- `EditSeq n s t`: `s` can be transformed into `t` by a sequence of
exactly `n` single-character edits. -/
inductive EditSeq : Nat → List Char → List Char → Prop where
  | refl (s : List Char) : EditSeq 0 s s
  | step {s t u : List Char} {n : Nat} :
      EditStep s t → EditSeq n t u → EditSeq (n + 1) s u

/-! ## Levenshtein recursion: basic facts -/

theorem levRec_nil_right (xs : List Char) : levRec xs [] = xs.length := by
  cases xs <;> simp [levRec]

theorem levRec_nil_left (ys : List Char) : levRec [] ys = ys.length := by
  simp [levRec]

theorem levRec_cons_left_le (x : Char) (xs ys : List Char) :
    levRec (x :: xs) ys ≤ levRec xs ys + 1 := by
  cases ys with
  | nil => simp [levRec_nil_right]
  | cons y ys => rw [levRec]; omega

theorem levRec_cons_right_le (y : Char) (xs ys : List Char) :
    levRec xs (y :: ys) ≤ levRec xs ys + 1 := by
  cases xs with
  | nil => simp [levRec]
  | cons x xs => rw [levRec]; omega

theorem levRec_cons_cons_le (x y : Char) (xs ys : List Char) :
    levRec (x :: xs) (y :: ys) ≤ levRec xs ys + (if x = y then 0 else 1) := by
  rw [levRec]; omega

theorem levRec_self (xs : List Char) : levRec xs xs = 0 := by
  induction xs with
  | nil => simp [levRec]
  | cons x xs ih =>
      have h3 := levRec_cons_cons_le x x xs xs
      simp [ih] at h3
      omega

/-! ## Alignments: the minimal-cost characterization of `levRec` -/

theorem Aligns.cast {xs ys : List Char} {n m : Nat}
    (h : Aligns xs ys n) (e : n = m) : Aligns xs ys m := e ▸ h

theorem aligns_levRec : ∀ xs ys : List Char, Aligns xs ys (levRec xs ys)
  | [], [] => by simpa [levRec] using Aligns.nil
  | x :: xs, [] => by
      have h := (aligns_levRec xs []).del x
      simpa [levRec_nil_right] using h
  | [], y :: ys => by
      have h := (aligns_levRec [] ys).ins y
      simpa [levRec_nil_left] using h
  | x :: xs, y :: ys => by
      have hA := (aligns_levRec xs (y :: ys)).del x
      have hB := (aligns_levRec (x :: xs) ys).ins y
      have hC := (aligns_levRec xs ys).sub x y
      have harm : levRec (x :: xs) (y :: ys) = levRec xs (y :: ys) + 1 ∨
          levRec (x :: xs) (y :: ys) = levRec (x :: xs) ys + 1 ∨
          levRec (x :: xs) (y :: ys) = levRec xs ys + (if x = y then 0 else 1) := by
        rw [levRec]; omega
      rcases harm with h | h | h
      · exact hA.cast h.symm
      · exact hB.cast h.symm
      · exact hC.cast h.symm

theorem levRec_le_of_aligns {xs ys : List Char} {n : Nat}
    (h : Aligns xs ys n) : levRec xs ys ≤ n := by
  induction h with
  | nil => simp [levRec]
  | del x _ ih => exact (levRec_cons_left_le x _ _).trans (by omega)
  | ins y _ ih => exact (levRec_cons_right_le y _ _).trans (by omega)
  | sub x y _ ih => exact (levRec_cons_cons_le x y _ _).trans (by omega)

theorem aligns_symm {xs ys : List Char} {n : Nat}
    (h : Aligns xs ys n) : Aligns ys xs n := by
  induction h with
  | nil => exact Aligns.nil
  | del x _ ih => exact ih.ins x
  | ins y _ ih => exact ih.del y
  | sub x y _ ih =>
      have e : (if x = y then (0 : Nat) else 1) = (if y = x then 0 else 1) := by
        rcases eq_or_ne x y with h | h
        · simp [h]
        · rw [if_neg h, if_neg (Ne.symm h)]
      exact (ih.sub y x).cast (by rw [e])

theorem levRec_symm (xs ys : List Char) : levRec xs ys = levRec ys xs :=
  Nat.le_antisymm
    (levRec_le_of_aligns (aligns_symm (aligns_levRec ys xs)))
    (levRec_le_of_aligns (aligns_symm (aligns_levRec xs ys)))

theorem aligns_snoc_del {xs ys : List Char} {n : Nat} (x : Char)
    (h : Aligns xs ys n) : Aligns (xs ++ [x]) ys (n + 1) := by
  induction h with
  | nil => exact Aligns.nil.del x
  | del a _ ih => exact (ih.del a).cast (by omega)
  | ins b _ ih => exact (ih.ins b).cast (by omega)
  | sub a b _ ih => exact (ih.sub a b).cast (by omega)

theorem aligns_snoc_ins {xs ys : List Char} {n : Nat} (y : Char)
    (h : Aligns xs ys n) : Aligns xs (ys ++ [y]) (n + 1) := by
  induction h with
  | nil => exact Aligns.nil.ins y
  | del a _ ih => exact (ih.del a).cast (by omega)
  | ins b _ ih => exact (ih.ins b).cast (by omega)
  | sub a b _ ih => exact (ih.sub a b).cast (by omega)

theorem aligns_snoc_sub {xs ys : List Char} {n : Nat} (x y : Char)
    (h : Aligns xs ys n) : Aligns (xs ++ [x]) (ys ++ [y]) (n + (if x = y then 0 else 1)) := by
  induction h with
  | nil => exact (Aligns.nil.sub x y).cast (by omega)
  | del a _ ih => exact (ih.del a).cast (by omega)
  | ins b _ ih => exact (ih.ins b).cast (by omega)
  | sub a b _ ih => exact (ih.sub a b).cast (by omega)

theorem aligns_reverse {xs ys : List Char} {n : Nat}
    (h : Aligns xs ys n) : Aligns xs.reverse ys.reverse n := by
  induction h with
  | nil => exact Aligns.nil
  | del a _ ih => simpa using aligns_snoc_del a ih
  | ins b _ ih => simpa using aligns_snoc_ins b ih
  | sub a b _ ih => simpa using aligns_snoc_sub a b ih

theorem levRec_reverse (xs ys : List Char) :
    levRec xs.reverse ys.reverse = levRec xs ys := by
  refine Nat.le_antisymm ?_ ?_
  · exact levRec_le_of_aligns (aligns_reverse (aligns_levRec xs ys))
  · have h := levRec_le_of_aligns (aligns_reverse (aligns_levRec xs.reverse ys.reverse))
    simpa using h

theorem costTriangle (x y z : Char) :
    (if x = z then (0 : Nat) else 1) ≤
      (if x = y then (0 : Nat) else 1) + (if y = z then (0 : Nat) else 1) := by
  rcases eq_or_ne x z with rfl | hxz
  · simp
  · rw [if_neg hxz]
    rcases eq_or_ne x y with rfl | hxy
    · rw [if_pos rfl, if_neg hxz]
    · rw [if_neg hxy]; omega

/-- Two alignments compose: an alignment of `a` with `b` and one of `b`
with `c` yield an alignment of `a` with `c` of at most the summed cost.
The fuel `N` bounds the total length and drives the induction. -/
theorem aligns_comp :
    ∀ (N : Nat) {a b c : List Char} {m n : Nat},
      a.length + b.length + c.length ≤ N →
      Aligns a b m → Aligns b c n → ∃ k, k ≤ m + n ∧ Aligns a c k := by
  intro N
  induction N with
  | zero =>
      intro a b c m n hlen h1 h2
      have ha : a = [] := by cases a <;> simp_all
      have hc : c = [] := by cases c <;> simp_all
      subst ha; subst hc
      exact ⟨0, Nat.zero_le _, Aligns.nil⟩
  | succ N ih =>
      intro a b c m n hlen h1 h2
      cases h2 with
      | nil =>
          exact ⟨m, by omega, h1⟩
      | del y h2' =>
          cases h1 with
          | del x h1' =>
              obtain ⟨k, hk, hal⟩ :=
                ih (by simp at hlen ⊢; omega) h1' (h2'.del y)
              exact ⟨k + 1, by omega, hal.del x⟩
          | ins _ h1' =>
              obtain ⟨k, hk, hal⟩ := ih (by simp at hlen ⊢; omega) h1' h2'
              exact ⟨k, by omega, hal⟩
          | sub x _ h1' =>
              obtain ⟨k, hk, hal⟩ := ih (by simp at hlen ⊢; omega) h1' h2'
              have hcost : (0 : Nat) ≤ 1 := Nat.zero_le 1
              refine ⟨k + 1, ?_, hal.del x⟩
              have : (0 : Nat) ≤ (if x = y then (0 : Nat) else 1) := Nat.zero_le _
              omega
      | ins z h2' =>
          obtain ⟨k, hk, hal⟩ := ih (by simp at hlen ⊢; omega) h1 h2'
          exact ⟨k + 1, by omega, hal.ins z⟩
      | sub y z h2' =>
          cases h1 with
          | del x h1' =>
              obtain ⟨k, hk, hal⟩ :=
                ih (by simp at hlen ⊢; omega) h1' (h2'.sub y z)
              exact ⟨k + 1, by omega, hal.del x⟩
          | ins _ h1' =>
              obtain ⟨k, hk, hal⟩ := ih (by simp at hlen ⊢; omega) h1' h2'
              refine ⟨k + 1, ?_, hal.ins z⟩
              have : (0 : Nat) ≤ (if y = z then (0 : Nat) else 1) := Nat.zero_le _
              omega
          | sub x _ h1' =>
              obtain ⟨k, hk, hal⟩ := ih (by simp at hlen ⊢; omega) h1' h2'
              refine ⟨k + (if x = z then (0 : Nat) else 1), ?_, hal.sub x z⟩
              have := costTriangle x y z
              omega

theorem levRec_triangle (a b c : List Char) :
    levRec a c ≤ levRec a b + levRec b c := by
  obtain ⟨k, hk, hal⟩ :=
    aligns_comp (a.length + b.length + c.length) le_rfl
      (aligns_levRec a b) (aligns_levRec b c)
  exact (levRec_le_of_aligns hal).trans hk

theorem levRec_cons_cons (x y : Char) (xs ys : List Char) :
    levRec (x :: xs) (y :: ys) =
      min (levRec xs (y :: ys) + 1)
        (min (levRec (x :: xs) ys + 1)
          (levRec xs ys + (if x = y then 0 else 1))) := by
  rw [levRec]

/-- The source's table agrees with the textbook recursion: cell
`m[i][j]` is the edit distance between the reversed `j`-prefix of `a`
and the reversed `i`-prefix of `b`. -/
theorem levCell_eq (a b : List Char) :
    ∀ i, i ≤ b.length → ∀ j, j ≤ a.length →
      levCell a b i j = levRec ((a.take j).reverse) ((b.take i).reverse) := by
  intro i
  induction i with
  | zero =>
      intro _ j hj
      simp [levCell, levRec_nil_right, Nat.min_eq_left hj]
  | succ i ih =>
      intro hi
      have hi' : i ≤ b.length := Nat.le_of_succ_le hi
      intro j
      induction j with
      | zero =>
          intro _
          show levCellRow a b (levCell a b i) i 0 = _
          rw [levCellRow]
          simp [levRec_nil_left, Nat.min_eq_left hi]
      | succ j ihj =>
          intro hj
          have hj' : j ≤ a.length := Nat.le_of_succ_le hj
          have hja : j < a.length := hj
          have hib : i < b.length := hi
          have hIH1 := ih hi' (j + 1) hj
          have hIH2 := ih hi' j hj'
          have hIH3 := ihj hj'
          have hgetA : a.getD j ' ' = a[j] := by
            simp [List.getD_eq_getElem?_getD, List.getElem?_eq_getElem hja]
          have hgetB : b.getD i ' ' = b[i] := by
            simp [List.getD_eq_getElem?_getD, List.getElem?_eq_getElem hib]
          have htakeA : (a.take (j + 1)).reverse = a[j] :: (a.take j).reverse := by
            rw [List.take_succ, List.getElem?_eq_getElem hja]
            simp
          have htakeB : (b.take (i + 1)).reverse = b[i] :: (b.take i).reverse := by
            rw [List.take_succ, List.getElem?_eq_getElem hib]
            simp
          have hmid : levCellRow a b (levCell a b i) i j = levCell a b (i + 1) j := rfl
          show levCellRow a b (levCell a b i) i (j + 1) = _
          rw [levCellRow, hmid, hgetA, hgetB, hIH1, hIH2, hIH3, htakeA, htakeB,
            levRec_cons_cons]
          omega

/-- `lev` computes the classic Levenshtein distance of the normalized
strings. -/
theorem lev_eq_levRec (a b : Option (List Char)) :
    lev a b = levRec (norm a) (norm b) := by
  have h := levCell_eq (norm a) (norm b) (norm b).length le_rfl (norm a).length le_rfl
  simpa [lev, List.take_length, levRec_reverse] using h

/-! ## Edit sequences: arbitrary-position single-character edits -/

theorem editStep_cons {s t : List Char} (c : Char)
    (h : EditStep s t) : EditStep (c :: s) (c :: t) := by
  cases h with
  | ins u v c' => exact EditStep.ins (c :: u) v c'
  | del u v c' => exact EditStep.del (c :: u) v c'
  | sub u v c' c'' => exact EditStep.sub (c :: u) v c' c''

theorem editSeq_cons {s t : List Char} {n : Nat} (c : Char)
    (h : EditSeq n s t) : EditSeq n (c :: s) (c :: t) := by
  induction h with
  | refl s => exact EditSeq.refl (c :: s)
  | step h1 _ ih => exact EditSeq.step (editStep_cons c h1) ih

theorem editSeq_of_aligns {xs ys : List Char} {n : Nat}
    (h : Aligns xs ys n) : EditSeq n xs ys := by
  induction h with
  | nil => exact EditSeq.refl []
  | del x _ ih => exact EditSeq.step (EditStep.del [] _ x) ih
  | ins y _ ih => exact EditSeq.step (EditStep.ins [] _ y) (editSeq_cons y ih)
  | sub x y _ ih =>
      rcases eq_or_ne x y with rfl | hxy
      · simpa using editSeq_cons x ih
      · rw [if_neg hxy]
        exact EditSeq.step (EditStep.sub [] _ x y) (editSeq_cons y ih)

theorem levRec_ins_le (u v : List Char) (c : Char) :
    levRec (u ++ v) (u ++ c :: v) ≤ 1 := by
  induction u with
  | nil =>
      have h := levRec_cons_right_le c v v
      simp only [List.nil_append]
      rw [levRec_self] at h
      simpa using h
  | cons a u ih =>
      have h := levRec_cons_cons_le a a (u ++ v) (u ++ c :: v)
      simp only [if_pos rfl, Nat.add_zero] at h
      simpa using h.trans ih

theorem levRec_sub_le (u v : List Char) (c c' : Char) :
    levRec (u ++ c :: v) (u ++ c' :: v) ≤ 1 := by
  induction u with
  | nil =>
      have h := levRec_cons_cons_le c c' v v
      rw [levRec_self] at h
      simp only [List.nil_append]
      refine h.trans ?_
      rcases eq_or_ne c c' with rfl | hcc
      · simp
      · simp [hcc]
  | cons a u ih =>
      have h := levRec_cons_cons_le a a (u ++ c :: v) (u ++ c' :: v)
      simp only [if_pos rfl, Nat.add_zero] at h
      simpa using h.trans ih

theorem levRec_le_one_of_editStep {s t : List Char}
    (h : EditStep s t) : levRec s t ≤ 1 := by
  cases h with
  | ins u v c => exact levRec_ins_le u v c
  | del u v c => rw [levRec_symm]; exact levRec_ins_le u v c
  | sub u v c c' => exact levRec_sub_le u v c c'

theorem levRec_le_of_editSeq {s t : List Char} {n : Nat}
    (h : EditSeq n s t) : levRec s t ≤ n := by
  induction h with
  | refl s => simp [levRec_self]
  | step h1 _ ih =>
      rename_i s' t' u' n' hseq
      have htri := levRec_triangle s' t' u'
      have hone := levRec_le_one_of_editStep h1
      omega

/-! ## Substring and fold-min helpers -/

theorem startsWithSeg_append (q v : List Char) :
    startsWithSeg (q ++ v) q = true := by
  induction q with
  | nil => cases v <;> simp [startsWithSeg]
  | cons c q ih => simp [startsWithSeg, ih]

theorem containsSeg_of_startsWith {t q : List Char}
    (h : startsWithSeg t q = true) : containsSeg t q = true := by
  cases t with
  | nil =>
      cases q with
      | nil => simp [containsSeg]
      | cons d ds => simp [startsWithSeg] at h
  | cons c ts => simp [containsSeg, h]

theorem containsSeg_append (u q v : List Char) :
    containsSeg (u ++ q ++ v) q = true := by
  induction u with
  | nil =>
      simp only [List.nil_append]
      exact containsSeg_of_startsWith (startsWithSeg_append q v)
  | cons a u ih =>
      have ih' : containsSeg (u ++ (q ++ v)) q = true := by
        simpa [List.append_assoc] using ih
      simp [containsSeg, ih']

theorem foldl_min_le_init (l : List Nat) (a : Nat) : l.foldl min a ≤ a := by
  induction l generalizing a with
  | nil => simp
  | cons x xs ih =>
      have h := ih (min a x)
      simp only [List.foldl_cons]
      exact h.trans (Nat.min_le_left a x)

theorem foldl_min_le_mem {l : List Nat} {b : Nat} (a : Nat) (hb : b ∈ l) :
    l.foldl min a ≤ b := by
  induction l generalizing a with
  | nil => simp at hb
  | cons x xs ih =>
      simp only [List.foldl_cons]
      rcases List.mem_cons.mp hb with rfl | hmem
      · exact (foldl_min_le_init xs (min a b)).trans (Nat.min_le_right a b)
      · exact ih (min a x) hmem

theorem foldl_min_mem_or (l : List Nat) (a : Nat) :
    l.foldl min a = a ∨ l.foldl min a ∈ l := by
  induction l generalizing a with
  | nil => left; rfl
  | cons x xs ih =>
      simp only [List.foldl_cons]
      rcases ih (min a x) with h | h
      · have hor : min a x = a ∨ min a x = x := by omega
        rcases hor with h2 | h2
        · left; rw [h, h2]
        · right; rw [h, h2]; exact List.mem_cons_self x xs
      · right; exact List.mem_cons_of_mem x h

/-! ## Claim theorems -/

/-- Claim C1: for any query and field whose normalized forms are both
non-empty, if the normalized field contains the normalized query as a
contiguous substring then `scoreQuery` returns 0 (the exact-substring
short-circuit fires before any edit distance is computed). -/
theorem C1_substring_short_circuit (q f : List Char)
    (hq : normStr q ≠ []) (hf : normStr f ≠ [])
    (hsub : ∃ u v, u ++ normStr q ++ v = normStr f) :
    scoreQuery (some q) (some f) = 0 := by
  obtain ⟨u, v, huv⟩ := hsub
  have hc : containsSeg (normStr f) (normStr q) = true := by
    rw [← huv]; exact containsSeg_append u (normStr q) v
  have h1 : (normStr q).isEmpty = false := by
    simp [List.isEmpty_iff, hq]
  have h2 : (normStr f).isEmpty = false := by
    simp [List.isEmpty_iff, hf]
  simp [scoreQuery, norm, h1, h2, hc]

/-- Witness for C1 at `q = "Aus"`, `f = "AUSTIN tx"`: the normalized
field `austintx` contains `aus`, the score is 0, and the raw edit
distance of the normalized strings is positive. -/
theorem C1_substring_short_circuit_witness :
    (normStr "Aus".toList ≠ [] ∧ normStr "AUSTIN tx".toList ≠ [] ∧
      [] ++ normStr "Aus".toList ++ "tintx".toList = normStr "AUSTIN tx".toList) ∧
    scoreQuery (some "Aus".toList) (some "AUSTIN tx".toList) = 0 ∧
    0 < lev (some (normStr "Aus".toList)) (some (normStr "AUSTIN tx".toList)) :=
  ⟨⟨by decide, by decide, by decide⟩,
    C1_substring_short_circuit "Aus".toList "AUSTIN tx".toList (by decide) (by decide)
      ⟨[], "tintx".toList, by decide⟩,
    by decide⟩

/-- Claim C2: `lev` computes the classic Levenshtein distance of the
normalized strings — it is the least `n` such that `normStr a` can be
transformed into `normStr b` by `n` single-character insertions,
deletions, or substitutions; the value is produced by the source's
`(|b|+1) × (|a|+1)` dynamic-programming table with index-sequence base
row and column. -/
theorem C2_lev_is_least_edit_count (a b : List Char) :
    IsLeast {n | EditSeq n (normStr a) (normStr b)} (lev (some a) (some b)) := by
  constructor
  · show EditSeq (lev (some a) (some b)) (normStr a) (normStr b)
    rw [lev_eq_levRec]
    simp only [norm, Option.getD_some]
    exact editSeq_of_aligns (aligns_levRec _ _)
  · intro n hn
    rw [lev_eq_levRec]
    simp only [norm, Option.getD_some]
    exact levRec_le_of_editSeq hn

/-- Claim C3: whenever either input is `null`/absent or normalizes to
the empty string, `scoreQuery` returns the sentinel 999 (and, being a
total function, never raises). -/
theorem C3_empty_sentinel (q t : Option (List Char))
    (h : q = none ∨ t = none ∨ norm q = [] ∨ norm t = []) :
    scoreQuery q t = 999 := by
  have hqt : norm q = [] ∨ norm t = [] := by
    rcases h with rfl | rfl | h | h
    · exact Or.inl rfl
    · exact Or.inr rfl
    · exact Or.inl h
    · exact Or.inr h
  rcases hqt with h | h <;> simp [scoreQuery, h]

/-- Witness for C3: an absent query, an empty query, and an empty field
all score 999 against the string `denver`. -/
theorem C3_empty_sentinel_witness :
    scoreQuery none (some "denver".toList) = 999 ∧
    scoreQuery (some []) (some "denver".toList) = 999 ∧
    scoreQuery (some "denver".toList) (some []) = 999 :=
  ⟨C3_empty_sentinel none (some "denver".toList) (Or.inl rfl),
    C3_empty_sentinel (some []) (some "denver".toList)
      (Or.inr (Or.inr (Or.inl (by decide)))),
    C3_empty_sentinel (some "denver".toList) (some [])
      (Or.inr (Or.inr (Or.inr (by decide))))⟩

/-- Claim C5: a record's overall score is the minimum of the
`scoreQuery` values over its name, city, state, zip, and each brand
string: it is one of those field scores and is below all of them. -/
theorem C5_record_score_is_min (q : List Char) (d : Dealer) :
    dealerScore q d ∈
      (searchFields d).map (fun v => scoreQuery (some q) (some v)) ∧
    ∀ s ∈ (searchFields d).map (fun v => scoreQuery (some q) (some v)),
      dealerScore q d ≤ s := by
  have hd : dealerScore q d =
      (d.brands.map (fun v => scoreQuery (some q) (some v))).foldl min
        (min
          (min
            (min (scoreQuery (some q) (some d.name)) (scoreQuery (some q) (some d.city)))
            (scoreQuery (some q) (some d.state)))
          (scoreQuery (some q) (some d.zip))) := rfl
  constructor
  · rw [hd]
    rcases foldl_min_mem_or (d.brands.map (fun v => scoreQuery (some q) (some v)))
        (min
          (min
            (min (scoreQuery (some q) (some d.name)) (scoreQuery (some q) (some d.city)))
            (scoreQuery (some q) (some d.state)))
          (scoreQuery (some q) (some d.zip))) with hinit | hbs
    · rw [hinit]
      have hor :
          (min
            (min
              (min (scoreQuery (some q) (some d.name)) (scoreQuery (some q) (some d.city)))
              (scoreQuery (some q) (some d.state)))
            (scoreQuery (some q) (some d.zip))) = scoreQuery (some q) (some d.name) ∨
          (min
            (min
              (min (scoreQuery (some q) (some d.name)) (scoreQuery (some q) (some d.city)))
              (scoreQuery (some q) (some d.state)))
            (scoreQuery (some q) (some d.zip))) = scoreQuery (some q) (some d.city) ∨
          (min
            (min
              (min (scoreQuery (some q) (some d.name)) (scoreQuery (some q) (some d.city)))
              (scoreQuery (some q) (some d.state)))
            (scoreQuery (some q) (some d.zip))) = scoreQuery (some q) (some d.state) ∨
          (min
            (min
              (min (scoreQuery (some q) (some d.name)) (scoreQuery (some q) (some d.city)))
              (scoreQuery (some q) (some d.state)))
            (scoreQuery (some q) (some d.zip))) = scoreQuery (some q) (some d.zip) := by
        omega
      rcases hor with h | h | h | h <;> rw [h] <;> simp [searchFields]
    · simp only [searchFields]
      simp only [List.map_append, List.mem_append]
      exact Or.inr hbs
  · intro s hs
    rw [hd]
    simp only [searchFields, List.map_append, List.mem_append, List.map_cons,
      List.map_nil, List.mem_cons, List.not_mem_nil, or_false] at hs
    have hinit := foldl_min_le_init
      (d.brands.map (fun v => scoreQuery (some q) (some v)))
      (min
        (min
          (min (scoreQuery (some q) (some d.name)) (scoreQuery (some q) (some d.city)))
          (scoreQuery (some q) (some d.state)))
        (scoreQuery (some q) (some d.zip)))
    rcases hs with (h | h | h | h) | hmem
    · omega
    · omega
    · omega
    · omega
    · exact foldl_min_le_mem _ hmem

/-- Claim C6: the distance function is a (pseudo)metric on normalized
strings: zero on the diagonal, symmetric, and satisfying the triangle
inequality, for every input (normalization happens inside `lev`). -/
theorem C6_lev_metric :
    (∀ a : Option (List Char), lev a a = 0) ∧
    (∀ a b : Option (List Char), lev a b = lev b a) ∧
    (∀ a b c : Option (List Char), lev a c ≤ lev a b + lev b c) := by
  refine ⟨?_, ?_, ?_⟩
  · intro a
    rw [lev_eq_levRec, levRec_self]
  · intro a b
    rw [lev_eq_levRec, lev_eq_levRec, levRec_symm]
  · intro a b c
    rw [lev_eq_levRec, lev_eq_levRec, lev_eq_levRec]
    exact levRec_triangle _ _ _

/-! ## Sorting helpers -/

theorem pairwise_score_of_mergeSort {α : Type} (l : List (α × Nat)) :
    (l.mergeSort (fun x y => x.2 ≤ y.2)).Pairwise (fun x y => x.2 ≤ y.2) := by
  have h := @List.sorted_mergeSort (α × Nat)
    (fun x y : α × Nat => decide (x.2 ≤ y.2))
    (by intro a b c h1 h2; simp at h1 h2 ⊢; omega)
    (by intro a b; simp; omega) l
  exact h.imp (by intro a b hb; simpa using hb)

theorem scored_mergeSort_perm {α : Type} (l : List (α × Nat)) :
    (l.mergeSort (fun x y => x.2 ≤ y.2)).Perm l :=
  List.mergeSort_perm l _

/-- The head of the sorted scored list carries the minimum score. -/
theorem bestScore_eq_head (q : List Char) (ds : List Dealer)
    (top : Dealer × Nat) (rest : List (Dealer × Nat))
    (hsc : (ds.map (fun d => (d, dealerScore q d))).mergeSort (fun x y => x.2 ≤ y.2)
        = top :: rest) :
    bestScore q ds = top.2 := by
  have hperm := scored_mergeSort_perm (ds.map (fun d => (d, dealerScore q d)))
  rw [hsc] at hperm
  have hsorted := pairwise_score_of_mergeSort (ds.map (fun d => (d, dealerScore q d)))
  rw [hsc] at hsorted
  have hmin : (ds.map (dealerScore q)).min? = some top.2 := by
    rw [List.min?_eq_some_iff (fun a => Nat.le_refl a) (fun a b => by omega)
      (fun a b c => by omega)]
    constructor
    · have htop : top ∈ ds.map (fun d => (d, dealerScore q d)) :=
        hperm.mem_iff.mp (List.mem_cons_self top rest)
      obtain ⟨d, hd, hde⟩ := List.mem_map.mp htop
      have : top.2 = dealerScore q d := by rw [← hde]
      rw [this]
      exact List.mem_map.mpr ⟨d, hd, rfl⟩
    · intro b hb
      obtain ⟨d, hd, hde⟩ := List.mem_map.mp hb
      have hmem : (d, dealerScore q d) ∈ top :: rest :=
        hperm.mem_iff.mpr (List.mem_map.mpr ⟨d, hd, rfl⟩)
      rcases List.mem_cons.mp hmem with he | htl
      · rw [← hde, ← he]
      · have := (List.pairwise_cons.mp hsorted).1 _ htl
        simpa [← hde] using this
  simp [bestScore, hmin]

theorem searchDealers_eq_empty (q : List Char) (ds : List Dealer)
    (h : 4 < bestScore q ds) : searchDealers q ds = [] := by
  unfold searchDealers
  cases hsc : (ds.map (fun d => (d, dealerScore q d))).mergeSort (fun x y => x.2 ≤ y.2) with
  | nil => rfl
  | cons top rest =>
      have htop := bestScore_eq_head q ds top rest hsc
      rw [htop] at h
      simp [if_pos h]

theorem searchDealers_eq_sorted (q : List Char) (ds : List Dealer)
    (h : bestScore q ds ≤ 4) :
    searchDealers q ds =
      ((ds.map (fun d => (d, dealerScore q d))).mergeSort
        (fun x y => x.2 ≤ y.2)).map (fun x => x.1) := by
  unfold searchDealers
  cases hsc : (ds.map (fun d => (d, dealerScore q d))).mergeSort (fun x y => x.2 ≤ y.2) with
  | nil => rfl
  | cons top rest =>
      have htop := bestScore_eq_head q ds top rest hsc
      rw [htop] at h
      simp [Nat.not_lt.mpr h]

/-- Claim C4: in the listing search with a non-empty query, if the best
(minimum) score over the candidates exceeds 4 the result is empty;
otherwise every candidate is returned, reordered ascending by score. -/
theorem C4_listing_threshold (q : List Char) (ds : List Dealer) (_hds : ds ≠ []) :
    (4 < bestScore q ds → searchDealers q ds = []) ∧
    (bestScore q ds ≤ 4 →
      (searchDealers q ds).Perm ds ∧
      (searchDealers q ds).Pairwise (fun d e => dealerScore q d ≤ dealerScore q e)) := by
  constructor
  · intro h4
    exact searchDealers_eq_empty q ds h4
  · intro h4
    rw [searchDealers_eq_sorted q ds h4]
    constructor
    · have hperm := (scored_mergeSort_perm (ds.map (fun d => (d, dealerScore q d)))).map
        (fun x : Dealer × Nat => x.1)
      refine hperm.trans ?_
      have hco : ((fun x : Dealer × Nat => x.1) ∘ fun d => (d, dealerScore q d)) = id := rfl
      rw [List.map_map, hco, List.map_id]
    · rw [List.pairwise_map]
      have hsorted := pairwise_score_of_mergeSort (ds.map (fun d => (d, dealerScore q d)))
      refine hsorted.imp_of_mem ?_
      intro x y hx hy hxy
      have hx' := (scored_mergeSort_perm (ds.map (fun d => (d, dealerScore q d)))).mem_iff.mp hx
      have hy' := (scored_mergeSort_perm (ds.map (fun d => (d, dealerScore q d)))).mem_iff.mp hy
      obtain ⟨dx, _, hdx⟩ := List.mem_map.mp hx'
      obtain ⟨dy, _, hdy⟩ := List.mem_map.mp hy'
      rw [← hdx, ← hdy] at hxy ⊢
      exact hxy

/-- Witness for C4 at a one-record set whose best achievable score is 5
(query `qqqqq` against single-character fields): the listing result is
empty. -/
theorem C4_listing_threshold_witness :
    bestScore "qqqqq".toList
        [⟨"d1".toList, "a".toList, "b".toList, "c".toList, "d".toList,
          ["e".toList], "p".toList⟩] = 5 ∧
    searchDealers "qqqqq".toList
        [⟨"d1".toList, "a".toList, "b".toList, "c".toList, "d".toList,
          ["e".toList], "p".toList⟩] = [] :=
  ⟨by decide,
    (C4_listing_threshold "qqqqq".toList
      [⟨"d1".toList, "a".toList, "b".toList, "c".toList, "d".toList,
        ["e".toList], "p".toList⟩] (by decide)).1 (by decide)⟩

/-- Claim C7: for a truthy query, the suggestion result is the 3-element
prefix of the pool ranked ascending by score (fewer only when the pool
is smaller), every returned entry comes from the pool with its
`scoreQuery` score, and no threshold is applied. -/
theorem C7_suggest_top3 (q : Option (List Char)) (ds : List Dealer)
    (hq : truthy q = true) :
    suggestionsFor q ds = (suggestRanked q ds).take 3 ∧
    (suggestionsFor q ds).length = min 3 (suggestPool ds).length ∧
    (suggestionsFor q ds).Pairwise (fun x y => x.2 ≤ y.2) ∧
    ∀ s ∈ suggestionsFor q ds,
      s.1 ∈ suggestPool ds ∧ s.2 = scoreQuery q (some s.1.value) := by
  have heq : suggestionsFor q ds = (suggestRanked q ds).take 3 := by
    simp [suggestionsFor, hq]
  refine ⟨heq, ?_, ?_, ?_⟩
  · rw [heq]
    simp [suggestRanked, suggestScored]
  · rw [heq]
    exact (pairwise_score_of_mergeSort (suggestScored q ds)).sublist
      (List.take_sublist 3 _)
  · intro s hs
    rw [heq] at hs
    have hs1 : s ∈ suggestRanked q ds := List.mem_of_mem_take hs
    have hs2 : s ∈ suggestScored q ds :=
      (scored_mergeSort_perm (suggestScored q ds)).mem_iff.mp hs1
    obtain ⟨it, hit, hits⟩ := List.mem_map.mp hs2
    constructor
    · rw [← hits]; exact hit
    · rw [← hits]

/-- Witness for C7 at query `aus` over a two-dealer set: three
suggestions are returned and sorted. -/
theorem C7_suggest_top3_witness :
    truthy (some "aus".toList) = true ∧
    (suggestionsFor (some "aus".toList)
        [⟨"d1".toList, "ab".toList, "cd".toList, "e".toList, "f".toList,
          ["g".toList], "p".toList⟩]).length =
      min 3 (suggestPool
        [⟨"d1".toList, "ab".toList, "cd".toList, "e".toList, "f".toList,
          ["g".toList], "p".toList⟩]).length :=
  ⟨by decide,
    (C7_suggest_top3 (some "aus".toList)
      [⟨"d1".toList, "ab".toList, "cd".toList, "e".toList, "f".toList,
        ["g".toList], "p".toList⟩] (by decide)).2.1⟩

theorem stageFilter (b : Bool) (p : Dealer → Bool) (l : List Dealer) :
    (if b = true then l.filter p else l) = l.filter (fun d => !b || p d) := by
  cases b
  · simp
  · simp

theorem le_foldl_min (l : List Nat) (a c : Nat) (ha : c ≤ a)
    (hl : ∀ x ∈ l, c ≤ x) : c ≤ l.foldl min a := by
  induction l generalizing a with
  | nil => simpa using ha
  | cons x xs ih =>
      simp only [List.foldl_cons]
      refine ih (min a x) ?_ ?_
      · have := hl x (List.mem_cons_self x xs)
        omega
      · intro y hy
        exact hl y (List.mem_cons_of_mem x hy)

/-- Claim C8: ranking is stable in both paths: candidates with equal
scores keep their input order — as a pair-sublist, two equal-scoring
entries appearing in that order in the input still appear in that
order after sorting (listing output and ranked suggestion pool). -/
theorem C8_ranking_stable :
    (∀ (q : List Char) (ds : List Dealer) (x y : Dealer),
        dealerScore q x = dealerScore q y →
        List.Sublist [x, y] ds →
        bestScore q ds ≤ 4 →
        List.Sublist [x, y] (searchDealers q ds)) ∧
    (∀ (q : Option (List Char)) (ds : List Dealer) (x y : Sug × Nat),
        x.2 = y.2 →
        List.Sublist [x, y] (suggestScored q ds) →
        List.Sublist [x, y] (suggestRanked q ds)) := by
  constructor
  · intro q ds x y hsc hsub hbest
    rw [searchDealers_eq_sorted q ds hbest]
    have hsub2 := hsub.map (fun d => (d, dealerScore q d))
    simp only [List.map_cons, List.map_nil] at hsub2
    have hpair : List.Sublist [(x, dealerScore q x), (y, dealerScore q y)]
        ((ds.map (fun d => (d, dealerScore q d))).mergeSort (fun a b => a.2 ≤ b.2)) := by
      refine List.pair_sublist_mergeSort ?_ ?_ ?_ hsub2
      · intro a b c h1 h2
        simp at h1 h2 ⊢
        omega
      · intro a b
        simp
        omega
      · simp [hsc]
    have hm := hpair.map (fun p : Dealer × Nat => p.1)
    simpa using hm
  · intro q ds x y hsc hsub
    show List.Sublist [x, y] ((suggestScored q ds).mergeSort (fun a b => a.2 ≤ b.2))
    refine List.pair_sublist_mergeSort ?_ ?_ ?_ hsub
    · intro a b c h1 h2
      simp at h1 h2 ⊢
      omega
    · intro a b
      simp
      omega
    · simp [hsc]

/-- Witness for C8: two equal-scoring dealers keep their order in the
listing output; two equal-scoring pool entries keep their order in the
ranked suggestions. -/
theorem C8_ranking_stable_witness :
    List.Sublist
      [(⟨"1".toList, "ab".toList, "x".toList, "y".toList, "z".toList, [], "p".toList⟩ : Dealer),
        ⟨"2".toList, "ab".toList, "x".toList, "y".toList, "z".toList, [], "p".toList⟩]
      (searchDealers "ab".toList
        [⟨"1".toList, "ab".toList, "x".toList, "y".toList, "z".toList, [], "p".toList⟩,
          ⟨"2".toList, "ab".toList, "x".toList, "y".toList, "z".toList, [], "p".toList⟩]) ∧
    List.Sublist
      [((⟨"city".toList, "bb".toList⟩ : Sug), 2), ((⟨"state".toList, "cc".toList⟩ : Sug), 2)]
      (suggestRanked (some "q9".toList)
        [⟨"i".toList, "aa".toList, "bb".toList, "cc".toList, "dd".toList, [], "p".toList⟩]) :=
  ⟨C8_ranking_stable.1 "ab".toList
      [⟨"1".toList, "ab".toList, "x".toList, "y".toList, "z".toList, [], "p".toList⟩,
        ⟨"2".toList, "ab".toList, "x".toList, "y".toList, "z".toList, [], "p".toList⟩]
      _ _ (by decide) (List.Sublist.refl _) (by decide),
    C8_ranking_stable.2 (some "q9".toList)
      [⟨"i".toList, "aa".toList, "bb".toList, "cc".toList, "dd".toList, [], "p".toList⟩]
      _ _ (by decide) (by decide)⟩

/-- Claim C9: with an absent or empty free-text query, the listing
endpoint does no fuzzy scoring: it returns exactly the records passing
the structured filters, in their stored order (a filter of the input
list). -/
theorem C9_empty_query_no_scoring (st ci zi br q0 : Option (List Char))
    (ds : List Dealer) (hq : truthy q0 = false) :
    apiDealers st ci zi br q0 ds =
      ds.filter (fun d =>
        (!truthy st || lowerStr d.state == lowerStr (st.getD [])) &&
        (!truthy ci || lowerStr d.city == lowerStr (ci.getD [])) &&
        (!truthy zi || d.zip == zi.getD []) &&
        (!truthy br || (d.brands.map lowerStr).contains (lowerStr (br.getD [])))) := by
  simp only [apiDealers, hq, Bool.false_eq_true, if_false]
  rw [stageFilter, stageFilter, stageFilter, stageFilter,
    List.filter_filter, List.filter_filter, List.filter_filter]
  refine List.filter_congr ?_
  intro d _
  generalize (!truthy st || (lowerStr d.state == lowerStr (st.getD []))) = a
  generalize (!truthy ci || (lowerStr d.city == lowerStr (ci.getD []))) = b
  generalize (!truthy zi || (d.zip == zi.getD [])) = c
  generalize (!truthy br || (d.brands.map lowerStr).contains (lowerStr (br.getD []))) = e
  cases a <;> cases b <;> cases c <;> cases e <;> rfl

/-- Witness for C9: with no structured filters and an absent or empty
query, the seeded dealer list is returned whole, in stored order. -/
theorem C9_empty_query_no_scoring_witness :
    apiDealers none none none none none dealersSeed =
      dealersSeed.filter (fun d =>
        (!truthy none || lowerStr d.state == lowerStr (Option.getD none [])) &&
        (!truthy none || lowerStr d.city == lowerStr (Option.getD none [])) &&
        (!truthy none || d.zip == Option.getD none []) &&
        (!truthy none || (d.brands.map lowerStr).contains (lowerStr (Option.getD none [])))) ∧
    apiDealers none none none none (some []) dealersSeed =
      dealersSeed.filter (fun d =>
        (!truthy none || lowerStr d.state == lowerStr (Option.getD none [])) &&
        (!truthy none || lowerStr d.city == lowerStr (Option.getD none [])) &&
        (!truthy none || d.zip == Option.getD none []) &&
        (!truthy none || (d.brands.map lowerStr).contains (lowerStr (Option.getD none [])))) :=
  ⟨C9_empty_query_no_scoring none none none none none dealersSeed (by decide),
    C9_empty_query_no_scoring none none none none (some []) dealersSeed (by decide)⟩

/-- Claim C10: a query that is non-empty but normalizes to the empty
string scores 999 against everything; the suggestion endpoint still
returns its 3-element prefix (each entry carrying 999), while the
listing search returns the empty list because 999 exceeds the
threshold 4. -/
theorem C10_degenerate_query (q : List Char) (hq : q ≠ []) (hn : normStr q = []) :
    (∀ t : Option (List Char), scoreQuery (some q) t = 999) ∧
    (∀ ds : List Dealer,
      (suggestionsFor (some q) ds).length = min 3 (suggestPool ds).length ∧
      ∀ s ∈ suggestionsFor (some q) ds, s.2 = 999) ∧
    (∀ (st ci zi br : Option (List Char)) (ds : List Dealer),
      apiDealers st ci zi br (some q) ds = []) := by
  have hscore : ∀ t : Option (List Char), scoreQuery (some q) t = 999 := by
    intro t
    simp [scoreQuery, norm, hn]
  have htr : truthy (some q) = true := by
    simp [truthy, List.isEmpty_iff, hq]
  have hds999 : ∀ d : Dealer, dealerScore q d = 999 := by
    intro d
    have hdef : dealerScore q d =
        (d.brands.map (fun b => scoreQuery (some q) (some b))).foldl min
          (min
            (min
              (min (scoreQuery (some q) (some d.name)) (scoreQuery (some q) (some d.city)))
              (scoreQuery (some q) (some d.state)))
            (scoreQuery (some q) (some d.zip))) := rfl
    have e1 := hscore (some d.name)
    have e2 := hscore (some d.city)
    have e3 := hscore (some d.state)
    have e4 := hscore (some d.zip)
    have hle := foldl_min_le_init
      (d.brands.map (fun b => scoreQuery (some q) (some b)))
      (min
        (min
          (min (scoreQuery (some q) (some d.name)) (scoreQuery (some q) (some d.city)))
          (scoreQuery (some q) (some d.state)))
        (scoreQuery (some q) (some d.zip)))
    have hge := le_foldl_min
      (d.brands.map (fun b => scoreQuery (some q) (some b)))
      (min
        (min
          (min (scoreQuery (some q) (some d.name)) (scoreQuery (some q) (some d.city)))
          (scoreQuery (some q) (some d.state)))
        (scoreQuery (some q) (some d.zip)))
      999 (by omega)
      (by
        intro x hx
        obtain ⟨b0, _, hb0⟩ := List.mem_map.mp hx
        rw [← hb0, hscore])
    rw [hdef]
    omega
  have hbest : ∀ l : List Dealer, 4 < bestScore q l := by
    intro l
    unfold bestScore
    cases hm : (l.map (dealerScore q)).min? with
    | none => simp
    | some m =>
        have hmem := List.min?_mem (fun a b => by omega) hm
        obtain ⟨d, _, hd⟩ := List.mem_map.mp hmem
        have hm999 : m = 999 := by rw [← hd]; exact hds999 d
        simp [hm999]
  have hsearch : ∀ l : List Dealer, searchDealers q l = [] :=
    fun l => searchDealers_eq_empty q l (hbest l)
  refine ⟨hscore, ?_, ?_⟩
  · intro ds
    constructor
    · simp [suggestionsFor, htr, suggestRanked, suggestScored]
    · intro s hs
      simp only [suggestionsFor, htr, if_true] at hs
      have hs1 := List.mem_of_mem_take hs
      have hs2 := (scored_mergeSort_perm (suggestScored (some q) ds)).mem_iff.mp hs1
      obtain ⟨it, _, hits⟩ := List.mem_map.mp hs2
      rw [← hits]
      simpa using hscore (some it.value)
  · intro st ci zi br ds
    simp [apiDealers, htr, hsearch]
/-- Witness for C10 at the punctuation-only query `!!!` over the seeded
dealers: every score is 999, three suggestions still come back, and the
listing search is empty. -/
theorem C10_degenerate_query_witness :
    scoreQuery (some "!!!".toList) (some "Denver".toList) = 999 ∧
    (suggestionsFor (some "!!!".toList) dealersSeed).length = 3 ∧
    (∀ s ∈ suggestionsFor (some "!!!".toList) dealersSeed, s.2 = 999) ∧
    apiDealers none none none none (some "!!!".toList) dealersSeed = [] := by
  have h := C10_degenerate_query "!!!".toList (by decide) (by decide)
  refine ⟨h.1 (some "Denver".toList), ?_, (h.2.1 dealersSeed).2,
    h.2.2 none none none none dealersSeed⟩
  rw [(h.2.1 dealersSeed).1]
  decide

example : lev (some "Denvr".toList) (some "Denver".toList) = 1 := by decide
example : scoreQuery (some "aus".toList) (some "Austin".toList) = 0 := by decide
example : scoreQuery (some "".toList) (some "x".toList) = 999 := by decide

end DealersPlus
